import Mathlib

/-!
Shallow embedding of the `nodo-bitcoin` node (Rust) in Lean 4, together with
theorems settling the frozen claims about its specification.

Conventions of the embedding:

* Machine bytes are `Nat` values below 256; byte strings are `List Nat`.
* Rust `u32`/`u64`/`usize` become `Nat`; `i32`/`i64` become `Int`, with
  two's-complement serialization made explicit where bytes are produced.
* The double-SHA-256 primitive comes from the external `bitcoin_hashes`
  crate (the spec declares cryptographic primitives external collaborators),
  so every definition that hashes is parametrized by an arbitrary function
  `sha256d : List Nat → List Nat`.
* Fallible Rust code (`Result`) becomes `Except NodeError`; code that can
  panic (out-of-bounds indexing / slicing) is additionally wrapped in
  `Option`, with `none` modelling the panic.
* Rust `f64` amounts in the wallet are modelled with exact rationals `Rat`;
  the structure of every arithmetic expression is kept as in the source.
* `HashMap` is modelled as an association list (insertion order stands in
  for the map's iteration order); `insert` replaces the value of an
  existing key in place, as `HashMap::insert` overwrites it.
-/

/-- Errors of the node, `src/node_error/mod.rs` (constructors restricted to
the ones reachable from the embedded functions). -/
inductive NodeError where
  | InvalidProofOfWork (msg : String)
  | InvalidMerkleRoot (msg : String)
  | InvalidMerkleTree (msg : String)
  | InvalidBlockHeaderLength (msg : String)
  | InvalidBlockHeaderField (msg : String)
  | InvalidSizeOfField (msg : String)
  | InvalidSizeOfPrefix (msg : String)
  | FailedToRead (msg : String)
  | FailedToConvert (msg : String)
  | FailedToWrite (msg : String)
  | FailedToSendMessage (msg : String)
  | FailedToDownloadBlock (msg : String)
  | NotEnoughCoins (msg : String)
  | NotP2PKHScript (msg : String)
  deriving DecidableEq, Repr

instance exceptDecidableEq {ε α : Type} [DecidableEq ε] [DecidableEq α] :
    DecidableEq (Except ε α) := fun x y =>
  match x, y with
  | .ok a, .ok b =>
    if h : a = b then isTrue (by rw [h]) else isFalse (by intro hc; cases hc; exact h rfl)
  | .error a, .error b =>
    if h : a = b then isTrue (by rw [h]) else isFalse (by intro hc; cases hc; exact h rfl)
  | .ok _, .error _ => isFalse (by intro hc; cases hc)
  | .error _, .ok _ => isFalse (by intro hc; cases hc)

/-- Little-endian bytes of a `u32` (`u32::to_le_bytes`). -/
def u32ToLeBytes (n : Nat) : List Nat :=
  [n % 256, n / 256 % 256, n / 65536 % 256, n / 16777216 % 256]

/-- Little-endian `u32` from four bytes (`u32::from_le_bytes`). -/
def u32FromLeBytes (b0 b1 b2 b3 : Nat) : Nat :=
  b0 + b1 * 256 + b2 * 65536 + b3 * 16777216

/-- Little-endian bytes of an `i32` in two's complement (`i32::to_le_bytes`). -/
def i32ToLeBytes (n : Int) : List Nat :=
  u32ToLeBytes (n.emod 4294967296).toNat

/-- Embeds `i32::from_le_bytes`. -/
def i32FromLeBytes (b0 b1 b2 b3 : Nat) : Int :=
  let u : Nat := u32FromLeBytes b0 b1 b2 b3
  if u < 2147483648 then (u : Int) else (u : Int) - 4294967296

/-- Little-endian bytes of a `u64` (`u64::to_le_bytes`). -/
def u64ToLeBytes (n : Nat) : List Nat :=
  [n % 256, n / 256 % 256, n / 65536 % 256, n / 16777216 % 256,
   n / 4294967296 % 256, n / 1099511627776 % 256,
   n / 281474976710656 % 256, n / 72057594037927936 % 256]

/-- Little-endian bytes of an `i64` in two's complement (`i64::to_le_bytes`). -/
def i64ToLeBytes (n : Int) : List Nat :=
  u64ToLeBytes (n.emod 18446744073709551616).toNat

/-- Little-endian bytes of a `u16` (`u16::to_le_bytes`). -/
def u16ToLeBytes (n : Nat) : List Nat :=
  [n % 256, n / 256 % 256]

/-- Wrapping subtraction on `u8` (release-build semantics of Rust's `-`;
both arguments are assumed below 256). -/
def u8wsub (a b : Nat) : Nat := (a + 256 - b) % 256

/-- Wrapping addition on `u8`. -/
def u8wadd (a b : Nat) : Nat := (a + b) % 256

/-- Strict lexicographic order on byte vectors, exactly `Ord` on Rust's
`Vec<u8>`: elementwise comparison, a proper prefix is smaller. -/
def listLexLt : List Nat → List Nat → Bool
  | _, [] => false
  | [], _ :: _ => true
  | a :: as, b :: bs => if a < b then true else if b < a then false else listLexLt as bs

/-- Non-strict lexicographic order on byte vectors (`<=` on `Vec<u8>`). -/
def listLexLe : List Nat → List Nat → Bool
  | [], _ => true
  | _ :: _, [] => false
  | a :: as, b :: bs => if a < b then true else if b < a then false else listLexLe as bs

/-- Embeds `Vec::set`-style checked write: `l[i] = v`, `none` when the index is out
of bounds (a Rust panic). -/
def setByte (l : List Nat) (i : Nat) (v : Nat) : Option (List Nat) :=
  if i < l.length then some (l.set i v) else none

/-- Block header, `src/nodo-bitcoin/src/block_header/mod.rs`.  `hash` caches
the double-SHA-256 of the 80-byte serialization, as filled by `from_bytes`. -/
structure BlockHeader where
  version : Int
  prev_blockhash : List Nat
  merkle_root_hash : List Nat
  timestamp : Nat
  n_bits : Nat
  nonce : Nat
  hash : List Nat
  deriving DecidableEq, Repr

/-- Embeds `BlockHeader::to_bytes`: version, prev hash, merkle root, timestamp,
n_bits, nonce, all little-endian. -/
def BlockHeader.to_bytes (bh : BlockHeader) : List Nat :=
  i32ToLeBytes bh.version ++ bh.prev_blockhash ++ bh.merkle_root_hash ++
    u32ToLeBytes bh.timestamp ++ u32ToLeBytes bh.n_bits ++ u32ToLeBytes bh.nonce

/-- The exponent byte of a compact `n_bits` value: byte 3 of its
little-endian representation. -/
def nBitsExponent (n_bits : Nat) : Nat := n_bits / 16777216 % 256

/-- Embeds `BlockHeader::calculate_target_threshold`:  starting from 32 zero bytes,
the three mantissa bytes (the low three bytes of `n_bits`) are written at
positions `32 - exponent + 2`, `31 - exponent + 2` and `30 - exponent + 2`,
with the position arithmetic performed on `u8` (wrapping, as in a release
build) and each write bounds-checked; `none` models the out-of-bounds
panic. -/
def BlockHeader.calculate_target_threshold_nbits (n_bits : Nat) : Option (List Nat) :=
  let bytes_n_bits := u32ToLeBytes n_bits
  let exponent := bytes_n_bits.getD 3 0
  let mantisa0 := bytes_n_bits.getD 0 0
  let mantisa1 := bytes_n_bits.getD 1 0
  let mantisa2 := bytes_n_bits.getD 2 0
  let target0 := List.replicate 32 0
  Option.bind (setByte target0 (u8wadd (u8wsub 32 exponent) 2) mantisa0) (fun target1 =>
    Option.bind (setByte target1 (u8wadd (u8wsub 31 exponent) 2) mantisa1) (fun target2 =>
      Option.bind (setByte target2 (u8wadd (u8wsub 30 exponent) 2) mantisa2) (fun target3 =>
        some target3)))

/-- Embeds `calculate_target_threshold` on a header value. -/
def BlockHeader.calculate_target_threshold (bh : BlockHeader) : Option (List Nat) :=
  BlockHeader.calculate_target_threshold_nbits bh.n_bits

/-- Embeds `validate_proof_of_work`, `src/nodo-bitcoin/src/block/mod.rs`: reverse
the cached header hash and reject when it is lexicographically greater than
the unpacked target.  The outer `Option` propagates the panic of the target
computation. -/
def validate_proof_of_work (bh : BlockHeader) : Option (Except NodeError Unit) :=
  Option.bind bh.calculate_target_threshold (fun target_threshold =>
    let hash := bh.hash.reverse
    if listLexLt target_threshold hash then
      some (Except.error (NodeError.InvalidProofOfWork "Invalid target threshold"))
    else
      some (Except.ok ()))

/-- Embeds `BlockHeader::from_bytes`, parametrized by the external double-SHA-256:
exactly 80 bytes, fields decoded little-endian, `hash` set to
`sha256d` of the whole serialization. -/
def BlockHeader.from_bytes (sha256d : List Nat → List Nat) (b : List Nat) :
    Except NodeError BlockHeader :=
  if b.length ≠ 80 then
    Except.error (NodeError.InvalidBlockHeaderLength (toString b.length))
  else
    Except.ok
      { version := i32FromLeBytes (b.getD 0 0) (b.getD 1 0) (b.getD 2 0) (b.getD 3 0)
        prev_blockhash := (b.drop 4).take 32
        merkle_root_hash := (b.drop 36).take 32
        timestamp := u32FromLeBytes (b.getD 68 0) (b.getD 69 0) (b.getD 70 0) (b.getD 71 0)
        n_bits := u32FromLeBytes (b.getD 72 0) (b.getD 73 0) (b.getD 74 0) (b.getD 75 0)
        nonce := u32FromLeBytes (b.getD 76 0) (b.getD 77 0) (b.getD 78 0) (b.getD 79 0)
        hash := sha256d b }

/-! ## Merkle tree, `src/nodo-bitcoin/src/block/merkle_tree.rs` -/

/-- The odd-length test `impar_tx_hashes` followed by the duplication of the
last hash: `if tx_hashes.len() % 2 != 0 { tx_hashes.push(last) }`. -/
def padOdd (txs : List (List Nat)) : List (List Nat) :=
  if txs.length % 2 = 1 then txs ++ [txs.getLastD []] else txs

/-- The `while` loop of `build_merkle_tree_from_hashes`: hash consecutive
pairs with `sha256d(left || right)`.  It is only ever applied to the padded
(even-length) level. -/
def pairConcatHash (sha256d : List Nat → List Nat) : List (List Nat) → List (List Nat)
  | a :: b :: rest => sha256d (a ++ b) :: pairConcatHash sha256d rest
  | _ => []

/-- Embeds `MerkleTree::build_merkle_tree_from_hashes`, fuel-indexed.  The Rust
recursion pushes the current (padded) level and recurses on the hashed
pairs, stopping at a single-element level; on the empty list it recurses on
the empty list forever, which the fuel models: `none` is non-termination. -/
def build_merkle_tree_from_hashes (sha256d : List Nat → List Nat) :
    Nat → List (List Nat) → Option (List (List (List Nat)))
  | 0, _ => none
  | fuel + 1, tx_hashes =>
    if tx_hashes.length = 1 then
      some [tx_hashes]
    else
      let padded := padOdd tx_hashes
      (build_merkle_tree_from_hashes sha256d fuel (pairConcatHash sha256d padded)).map
        (fun rest => padded :: rest)

/-- Embeds `MerkleTree::root`: the single hash of the last level
(`leefs[leefs.len() - 1][0]`). -/
def MerkleTree.root (leefs : List (List (List Nat))) : List Nat :=
  (leefs.getLastD []).getD 0 []

/-- One step of level formation as stored by the builder: a freshly computed
level is padded unless it is the final single-element level. -/
def storedLevel (lvl : List (List Nat)) : List (List Nat) :=
  if lvl.length = 1 then lvl else padOdd lvl

/-! ## Merkle inclusion proofs, `src/nodo-bitcoin/src/block/proof_of_inclusion.rs` -/

/-- Direction constant `LEFT` (the `constants` module is not part of the
sources; the spec fixes the direction alphabet to `{LEFT, RIGHT}`). -/
def LEFT : String := "left"

/-- Direction constant `RIGHT`. -/
def RIGHT : String := "right"

/-- Embeds `Iterator::position(|h| h == tx_id)` over a level of hashes. -/
def position (tx_id : List Nat) : List (List Nat) → Option Nat
  | [] => none
  | h :: rest => if h = tx_id then some 0 else (position tx_id rest).map (· + 1)

/-- A Merkle proof: the path of `(hash, direction)` tuples, hashes stored in
display endianness (reversed). -/
structure MerkleProof where
  proof_path : List (List Nat × String)
  deriving DecidableEq, Repr

/-- The `for level in 0..levels-1` loop of `MerkleProof::for_tx_in_block`:
at each level push the sibling (reversed to display order) and its
direction, then halve the index. -/
def proofSiblingSteps : List (List (List Nat)) → Nat → List (List Nat × String)
  | [], _ => []
  | lvl :: rest, hash_index =>
    let is_left_child := hash_index % 2 = 0
    let sibling_direction := if is_left_child then RIGHT else LEFT
    let sibling_index := if is_left_child then hash_index + 1 else hash_index - 1
    let sib := (lvl.getD sibling_index []).reverse
    (sib, sibling_direction) :: proofSiblingSteps rest (hash_index / 2)

/-- Embeds `MerkleProof::for_tx_in_block` after the tree has been generated and the
transaction id brought to hash order (the hex decoding and the reversal of
the display string are the omitted I/O front end): find the leaf, record
the leaf with its direction — `initialize_from_leaf` — then walk all levels
but the top. -/
def MerkleProof.for_tx_in_tree (tx_id_bytes : List Nat) (leefs : List (List (List Nat))) :
    Except NodeError MerkleProof :=
  match position tx_id_bytes (leefs.getD 0 []) with
  | none => Except.error (NodeError.InvalidMerkleTree
      "Failed to obtain hash index from merkle tree, transaction not found in block")
  | some hash_index =>
    let leaf_node_direction := if hash_index % 2 = 0 then LEFT else RIGHT
    Except.ok ⟨(tx_id_bytes.reverse, leaf_node_direction) ::
      proofSiblingSteps leefs.dropLast hash_index⟩

/-- One fold step of `MerkleProof::build_merkle_root`: reverse the stored
sibling back to hash order, concatenate on the indicated side, hash. -/
def proofStep (sha256d : List Nat → List Nat) (merkle_root : List Nat)
    (entry : List Nat × String) : List Nat :=
  let sibling_hash := entry.1.reverse
  if entry.2 = RIGHT then sha256d (merkle_root ++ sibling_hash)
  else sha256d (sibling_hash ++ merkle_root)

/-- Embeds `MerkleProof::build_merkle_root`: start from the reversed leaf entry and
fold the remaining path with `proofStep`. -/
def MerkleProof.build_merkle_root (sha256d : List Nat → List Nat) (p : MerkleProof) : List Nat :=
  ((p.proof_path.drop 1).foldl (proofStep sha256d)
    ((p.proof_path.getD 0 ([], "")).1.reverse))

/-- Embeds `MerkleTree::new_from_hashes`.  The Rust recursion carries no fuel;
`hashes.length + 1` units are enough for every terminating run
(`build_merkle_tree_terminates`, with `build_fuel_mono` making the result
fuel-independent), and on `[]`, where the recursion never terminates, every
fuel amount yields `none`. -/
def MerkleTree.new_from_hashes (sha256d : List Nat → List Nat) (hashes : List (List Nat)) :
    Option (List (List (List Nat))) :=
  build_merkle_tree_from_hashes sha256d (hashes.length + 1) hashes

/-- A concrete stand-in for the external hash primitive, used to instantiate
the `sha256d` parameter of the theorems in closed witness statements. -/
def testHash (l : List Nat) : List Nat := [l.length % 256]

/-- The 80-byte serialized header used in the C1 witness: all zero except
an `n_bits` exponent byte of 24. -/
def witHeaderBytes : List Nat := List.replicate 72 0 ++ [0, 0, 0, 24] ++ List.replicate 4 0

/-- The header `from_bytes testHash witHeaderBytes` parses to. -/
def witHeader : BlockHeader :=
  { version := 0
    prev_blockhash := List.replicate 32 0
    merkle_root_hash := List.replicate 32 0
    timestamp := 0
    n_bits := 402653184
    nonce := 0
    hash := [80] }

/-! ## Header download, `src/nodo-bitcoin/src/node/block_header_downloader.rs` -/

/-- Maximum number of headers per `headers` message (constant
`MAX_HEADERS_COUNT`; the `constants` module is not in the sources, the spec
fixes the maximum batch to 2000). -/
def MAX_HEADERS_COUNT : Nat := 2000

/-- The timestamp field of an 80-byte serialized header (bytes 68..71,
little-endian), as `BlockHeader::from_bytes` decodes it. -/
def headerTimestampBytes (b : List Nat) : Nat :=
  u32FromLeBytes (b.getD 68 0) (b.getD 69 0) (b.getD 70 0) (b.getD 71 0)

/-- The filtering loop of `receive_headers_message` for a short batch:
parse each header (aborting on the first parse error, as `?` does) and keep
those with `timestamp >= last_bh_timestamp`, in order. -/
def filterByTimestamp (sha256d : List Nat → List Nat) (last_bh_timestamp : Nat) :
    List (List Nat) → Except NodeError (List (List Nat))
  | [] => Except.ok []
  | b :: rest =>
    match BlockHeader.from_bytes sha256d b with
    | Except.error e => Except.error e
    | Except.ok block_header =>
      match filterByTimestamp sha256d last_bh_timestamp rest with
      | Except.error e => Except.error e
      | Except.ok tail =>
        Except.ok (if block_header.timestamp ≥ last_bh_timestamp then b :: tail else tail)

/-- Embeds `BlockHeaderDownloader::receive_headers_message` with the I/O made
explicit: the input list is the batch of 80-byte records read from the
stream (so `headers_count` is its length), the first component of the
result is the list of records appended to the header file. -/
def receive_headers_message (sha256d : List Nat → List Nat) (block_headers : List (List Nat))
    (last_bh : List Nat) : Except NodeError (List (List Nat) × Nat) :=
  let headers_count := block_headers.length
  match BlockHeader.from_bytes sha256d last_bh with
  | Except.error e => Except.error e
  | Except.ok last_header =>
    if headers_count < MAX_HEADERS_COUNT then
      match filterByTimestamp sha256d last_header.timestamp block_headers with
      | Except.error e => Except.error e
      | Except.ok last_block_headers => Except.ok (last_block_headers, headers_count)
    else
      Except.ok (block_headers, headers_count)

/-- The `MessageType::Headers` arm of `handle_download`: after
`receive_headers_message`, compare the returned count with
`MAX_HEADERS_COUNT`; on equality another `getheaders` is sent and the loop
continues (`true`), otherwise the download terminates (`false`). -/
def handle_headers_batch (sha256d : List Nat → List Nat) (block_headers : List (List Nat))
    (last_bh : List Nat) : Except NodeError (List (List Nat) × Bool) :=
  match receive_headers_message sha256d block_headers last_bh with
  | Except.error e => Except.error e
  | Except.ok (written, count) => Except.ok (written, decide (count = MAX_HEADERS_COUNT))

/-- An 80-byte header record with timestamp 1, for the C4 witness. -/
def witHeaderBytesTs1 : List Nat :=
  List.replicate 68 0 ++ [1, 0, 0, 0] ++ List.replicate 8 0

/-! ## Compact size, `src/nodo-bitcoin/src/compact_size/mod.rs` -/

/-- Embeds `CompactSize`: wrapper for Bitcoin's variable-length integer. -/
inductive CompactSize where
  | U8 (n : Nat)
  | U16 (n : Nat)
  | U32 (n : Nat)
  | U64 (n : Nat)
  deriving DecidableEq, Repr

/-- Embeds `CompactSize::get_value`. -/
def CompactSize.get_value : CompactSize → Nat
  | .U8 n => n
  | .U16 n => n
  | .U32 n => n
  | .U64 n => n

/-- Embeds `CompactSize::to_bytes`: the variant's tag byte (none for `U8`)
followed by the value little-endian. -/
def CompactSize.to_bytes : CompactSize → List Nat
  | .U8 n => [n % 256]
  | .U16 n => 0xfd :: u16ToLeBytes n
  | .U32 n => 0xfe :: u32ToLeBytes n
  | .U64 n => 0xff :: u64ToLeBytes n

/-- Embeds `CompactSize::new`: smallest variant that holds `length`. -/
def CompactSize.new (length : Nat) : CompactSize :=
  if length < 0xFD then .U8 length
  else if length ≤ 0xFFFF then .U16 length
  else if length ≤ 0xFFFFFFFF then .U32 length
  else .U64 length

/-! ## Transactions, `src/nodo-bitcoin/src/transactions/` -/

/-- Embeds `Outpoint`, `outpoint.rs`. -/
structure Outpoint where
  tx_id : List Nat
  index : Nat
  deriving DecidableEq, Repr

/-- Embeds `Outpoint::to_bytes`: 32-byte tx id then the index little-endian. -/
def Outpoint.to_bytes (o : Outpoint) : List Nat :=
  o.tx_id ++ u32ToLeBytes o.index

/-- Embeds `TxInput`, `tx_input.rs`. -/
structure TxInput where
  previous_output : Outpoint
  script_bytes : CompactSize
  signature_script : List Nat
  sequence : Nat
  deriving DecidableEq, Repr

/-- Embeds `TxInput::to_bytes`. -/
def TxInput.to_bytes (i : TxInput) : List Nat :=
  i.previous_output.to_bytes ++ i.script_bytes.to_bytes ++ i.signature_script ++
    u32ToLeBytes i.sequence

/-- Embeds `TxInput::new_unsigned`: reference the outpoint, keep the given
(signature) script — empty for an unsigned input — sequence `0xffffffff`. -/
def TxInput.new_unsigned (tx_id : List Nat) (index : Nat)
    (previous_pk_script : List Nat) : TxInput :=
  { previous_output := { tx_id := tx_id, index := index }
    script_bytes := CompactSize.new previous_pk_script.length
    signature_script := previous_pk_script
    sequence := 0xffffffff }

/-- Embeds `TxOutput`, `tx_output.rs`: `value` is the satoshi amount (`i64`). -/
structure TxOutput where
  value : Int
  pk_script_bytes : CompactSize
  pk_script : List Nat
  tx_id : List Nat
  index : Nat
  block_path : String
  deriving DecidableEq, Repr

/-- Embeds `SATOSHI_CONVERSION_COEFFICIENT` (`1e8`, satoshis per coin; the
`constants` module is not in the sources, the conversion is the standard
one the tests rely on). -/
def SATOSHI_CONVERSION_COEFFICIENT : Rat := 100000000

/-- Rust `as i64` on an `f64`: truncation toward zero (the `f64` itself is
modelled exactly as `Rat`). -/
def ratTruncToInt (q : Rat) : Int :=
  if q < 0 then -(Int.floor (-q)) else Int.floor q

/-- The method `TxOutput::value()`: satoshis to coins. -/
def TxOutput.valueF (o : TxOutput) : Rat :=
  (o.value : Rat) / SATOSHI_CONVERSION_COEFFICIENT

/-- Embeds `TxOutput::to_bytes`. -/
def TxOutput.to_bytes (o : TxOutput) : List Nat :=
  i64ToLeBytes o.value ++ o.pk_script_bytes.to_bytes ++ o.pk_script

/-- Embeds `TxOutput::new`: value in coins converted to satoshis. -/
def TxOutput.new (value : Rat) (pk_script : List Nat) (index : Nat) : TxOutput :=
  { value := ratTruncToInt (value * SATOSHI_CONVERSION_COEFFICIENT)
    pk_script_bytes := CompactSize.new pk_script.length
    pk_script := pk_script
    tx_id := []
    index := index
    block_path := "" }

/-- Embeds `Transaction`, `transaction.rs`. -/
structure Transaction where
  version : Nat
  tx_in_count : CompactSize
  tx_inputs : List TxInput
  tx_out_count : CompactSize
  tx_outputs : List TxOutput
  lock_time : Nat
  deriving DecidableEq, Repr

/-- Embeds `Transaction::new_unsigned`. -/
def Transaction.new_unsigned (unsigned_tx_ins : List TxInput) (tx_outs : List TxOutput) :
    Transaction :=
  { version := 1
    tx_in_count := CompactSize.new unsigned_tx_ins.length
    tx_inputs := unsigned_tx_ins
    tx_out_count := CompactSize.new tx_outs.length
    tx_outputs := tx_outs
    lock_time := 0 }

/-- Embeds `Transaction::to_bytes`. -/
def Transaction.to_bytes (tx : Transaction) : List Nat :=
  u32ToLeBytes tx.version ++ tx.tx_in_count.to_bytes ++
    (tx.tx_inputs.map TxInput.to_bytes).flatten ++ tx.tx_out_count.to_bytes ++
    (tx.tx_outputs.map TxOutput.to_bytes).flatten ++ u32ToLeBytes tx.lock_time

/-- Embeds `Transaction::tx_id`: double-SHA-256 of the serialization. -/
def Transaction.tx_id (sha256d : List Nat → List Nat) (tx : Transaction) : List Nat :=
  sha256d tx.to_bytes

/-- Embeds `Transaction::add_block_path_to_tx_outs`. -/
def Transaction.add_block_path (tx : Transaction) (block_path : String) : Transaction :=
  { tx with tx_outputs := tx.tx_outputs.map (fun o => { o with block_path := block_path }) }

/-! ## UTXO set, `src/nodo-bitcoin/src/transactions/utxo_set.rs`.
The `HashMap` is an association list whose entry order stands in for the
map's iteration order; well-formed states have pairwise-distinct keys. -/

/-- The UTXO set: transaction ids mapped to their unspent outputs. -/
abbrev UtxoSet := List (List Nat × List TxOutput)

/-- Embeds `HashMap::get` (first entry with the key). -/
def UtxoSet.find? : UtxoSet → List Nat → Option (List TxOutput)
  | [], _ => none
  | (k, v) :: rest, key => if k = key then some v else UtxoSet.find? rest key

/-- Embeds `UtxoSet::contains_key`. -/
def UtxoSet.contains_key (set : UtxoSet) (tx_id : List Nat) : Bool :=
  (UtxoSet.find? set tx_id).isSome

/-- Embeds `HashMap::insert`: replace the value of an existing key, else append. -/
def UtxoSet.insert : UtxoSet → List Nat → List TxOutput → UtxoSet
  | [], k, v => [(k, v)]
  | (k', v') :: rest, k, v =>
    if k' = k then (k, v) :: rest else (k', v') :: UtxoSet.insert rest k v

/-- Embeds `UtxoSet::remove` (`HashMap::remove`). -/
def UtxoSet.remove : UtxoSet → List Nat → UtxoSet
  | [], _ => []
  | (k', v') :: rest, k => if k' = k then rest else (k', v') :: UtxoSet.remove rest k

/-- The inner spend loop of `UtxoSet::update`: `Vec::remove` of the first
output whose `index` equals the outpoint's. -/
def removeOutputAtIndex (index : Nat) : List TxOutput → List TxOutput
  | [] => []
  | o :: rest => if o.index = index then rest else o :: removeOutputAtIndex index rest

/-- Whether the set holds an output `(tx_id, index)`. -/
def UtxoSet.hasOutpoint (set : UtxoSet) (tx_id : List Nat) (index : Nat) : Bool :=
  match UtxoSet.find? set tx_id with
  | none => false
  | some outs => outs.any (fun o => o.index == index)

/-- Processing of one transaction input by `UtxoSet::update`: if the map
holds the referenced tx id and one of its outputs has the referenced
index, drop that output, removing the tx id entirely when its vector
becomes empty. -/
def UtxoSet.consumeInput (set : UtxoSet) (outpoint : Outpoint) : UtxoSet :=
  match UtxoSet.find? set outpoint.tx_id with
  | none => set
  | some tx_outputs =>
    if tx_outputs.any (fun o => o.index == outpoint.index) then
      let remaining := removeOutputAtIndex outpoint.index tx_outputs
      if remaining = [] then UtxoSet.remove set outpoint.tx_id
      else UtxoSet.insert set outpoint.tx_id remaining
    else set

/-- The per-transaction body of `UtxoSet::update`: tag the outputs with the
block path, consume every input in order, then insert the transaction's
outputs under its own id. -/
def UtxoSet.processTransaction (sha256d : List Nat → List Nat) (block_path : String)
    (set : UtxoSet) (tx0 : Transaction) : UtxoSet :=
  let transaction := tx0.add_block_path block_path
  let tx_outputs := transaction.tx_outputs
  let tx_id := Transaction.tx_id sha256d transaction
  let consumed := transaction.tx_inputs.foldl
    (fun s tx_input => UtxoSet.consumeInput s tx_input.previous_output) set
  UtxoSet.insert consumed tx_id tx_outputs

/-- Embeds `UtxoSet::update` with the block file read made explicit: fold the
block's transactions in order. -/
def UtxoSet.update (sha256d : List Nat → List Nat) (set : UtxoSet) (block_path : String)
    (transactions : List Transaction) : UtxoSet :=
  transactions.foldl (UtxoSet.processTransaction sha256d block_path) set

/-- A sequence of `update` calls, one per block, in order. -/
def UtxoSet.updateBlocks (sha256d : List Nat → List Nat) (set : UtxoSet)
    (blocks : List (String × List Transaction)) : UtxoSet :=
  blocks.foldl (fun s blk => UtxoSet.update sha256d s blk.1 blk.2) set

/-- A concrete unspent output for the C5 witness. -/
def witOut : TxOutput :=
  { value := 5
    pk_script_bytes := CompactSize.U8 0
    pk_script := []
    tx_id := []
    index := 0
    block_path := "" }

/-! ## Block download pool, `src/nodo-bitcoin/src/node_pools/block_downloader.rs` -/

/-- The visible effects of one `download_and_save` call. -/
structure DownloadOutcome where
  result : Except NodeError Unit
  failed_count : Nat
  failed_sent : List (List Nat)
  deriving DecidableEq, Repr

/-- Embeds `BlockDownloader::download_and_save` with its effects explicit:
`fetch` is the outcome of `block_download` (the network fetch) and
`validate` the outcome `save_block` (that is, `validate_and_save_block`)
produces on the fetched bytes.  In the source, a validation failure after a
successful fetch is only printed (`println!("Error save block: ...")`) and
the call still returns `Ok(())`; only a fetch failure increments the
per-worker counter and queues the hash on the failure channel. -/
def download_and_save (fetch : Except NodeError (List Nat))
    (validate : List Nat → Except NodeError Unit)
    (block_hash : List Nat) (failed_count : Nat) : DownloadOutcome :=
  match fetch with
  | Except.ok block =>
    match validate block with
    | Except.ok _ =>
      { result := Except.ok (), failed_count := failed_count, failed_sent := [] }
    | Except.error _ =>
      { result := Except.ok (), failed_count := failed_count, failed_sent := [] }
  | Except.error _ =>
    { result := Except.error (NodeError.FailedToDownloadBlock "Failed to download block")
      failed_count := failed_count + 1
      failed_sent := [block_hash] }

/-- One turn of the worker loop spawned in `BlockDownloader::new`:
the first component says whether the loop continues, the second whether
`delete_timeout` ran (the read timeout was cleared).  `none` from
`process_hash_and_download` means the hash channel closed; otherwise the
worker exits exactly when the failure counter exceeds
`MAX_FAILED_COUNT` (taken as a parameter: the `constants` module is not in
the sources). -/
def worker_step (step : Option Unit) (failed_count MAX_FAILED_COUNT : Nat) : Bool × Bool :=
  match step with
  | none => (false, true)
  | some _ => if failed_count > MAX_FAILED_COUNT then (false, true) else (true, false)

/-! ## Inv message, `src/nodo-bitcoin/src/messages/inv_message.rs` and
`Utils::read_varint`, `src/nodo-bitcoin/src/utils/mod.rs` -/

/-- Embeds `u16::from_le_bytes`. -/
def u16FromLeBytes (b0 b1 : Nat) : Nat := b0 + b1 * 256

/-- Embeds `u64::from_le_bytes`. -/
def u64FromLeBytes (b0 b1 b2 b3 b4 b5 b6 b7 : Nat) : Nat :=
  b0 + b1 * 256 + b2 * 65536 + b3 * 16777216 + b4 * 4294967296 +
    b5 * 1099511627776 + b6 * 281474976710656 + b7 * 72057594037927936

/-- Embeds `MAX_INVENTORY_VECTOR` (50000 inventory entries; the `constants` module
is not in the sources, the spec fixes the cap to 50000). -/
def MAX_INVENTORY_VECTOR : Nat := 50000

/-- Embeds `INVENTORY_LENGTH`: a serialized inventory entry is 36 bytes. -/
def INVENTORY_LENGTH : Nat := 36

/-- Embeds `Utils::read_varint` over a byte slice: `(value, bytes_read)`.  An
empty slice is a clean error; a multi-byte marker whose payload bytes are
missing panics in `copy_from_slice` (`none`). -/
def read_varint (bytes : List Nat) : Option (Except NodeError (Nat × Nat)) :=
  match bytes with
  | [] => some (Except.error (NodeError.InvalidSizeOfPrefix "Unexpected end of message"))
  | b0 :: rest =>
    if b0 = 0xFD then
      if rest.length < 2 then none
      else some (Except.ok (u16FromLeBytes (rest.getD 0 0) (rest.getD 1 0), 3))
    else if b0 = 0xFE then
      if rest.length < 4 then none
      else some (Except.ok
        (u32FromLeBytes (rest.getD 0 0) (rest.getD 1 0) (rest.getD 2 0) (rest.getD 3 0), 5))
    else if b0 = 0xFF then
      if rest.length < 8 then none
      else some (Except.ok
        (u64FromLeBytes (rest.getD 0 0) (rest.getD 1 0) (rest.getD 2 0) (rest.getD 3 0)
          (rest.getD 4 0) (rest.getD 5 0) (rest.getD 6 0) (rest.getD 7 0), 9))
    else some (Except.ok (b0, 1))

/-- An inventory entry: object type and 32-byte hash. -/
structure InventoryEntry where
  inv_type : Nat
  hash : List Nat
  deriving DecidableEq, Repr

/-- Embeds `InventoryEntry::from_bytes`: `read_exact` 4 bytes (type, little
endian) then 32 bytes (hash). -/
def InventoryEntry.from_bytes (bytes : List Nat) : Except NodeError InventoryEntry :=
  if bytes.length < 4 then
    Except.error (NodeError.FailedToRead "Failed to read Inv entry bytes")
  else if bytes.length < 36 then
    Except.error (NodeError.FailedToRead "Failed to read Inv entry bytes")
  else
    Except.ok
      { inv_type := u32FromLeBytes (bytes.getD 0 0) (bytes.getD 1 0) (bytes.getD 2 0)
          (bytes.getD 3 0)
        hash := (bytes.drop 4).take 32 }

/-- Embeds `InventoryEntry::to_bytes` (in the source a `Result` that is always
`Ok`): type little-endian then the hash. -/
def InventoryEntry.to_bytes (e : InventoryEntry) : List Nat :=
  u32ToLeBytes e.inv_type ++ e.hash

/-- The `inv` message.  `count` is a `u8` field in the source struct. -/
structure InvMessage where
  count : Nat
  inventory : List InventoryEntry
  deriving DecidableEq, Repr

/-- The entry loop of `InvMessage::from_bytes`: take `INVENTORY_LENGTH`
bytes per entry; the slice `&bytes[offset..offset + INVENTORY_LENGTH]`
panics (`none`) when fewer bytes remain. -/
def readInvEntries : Nat → List Nat → Option (Except NodeError (List InventoryEntry))
  | 0, _ => some (Except.ok [])
  | n + 1, bytes =>
    if bytes.length < INVENTORY_LENGTH then none
    else
      match InventoryEntry.from_bytes (bytes.take INVENTORY_LENGTH) with
      | Except.error _ =>
        some (Except.error (NodeError.FailedToRead "Failed to read Inv entry bytes"))
      | Except.ok entry =>
        match readInvEntries n (bytes.drop INVENTORY_LENGTH) with
        | none => none
        | some (Except.error e) => some (Except.error e)
        | some (Except.ok rest) => some (Except.ok (entry :: rest))

/-- Embeds `InvMessage::from_bytes`: read the count varint, reject counts above
`MAX_INVENTORY_VECTOR`, read that many 36-byte entries, then convert the
count into the struct's `u8` field (`count.try_into()`), which fails for
counts above 255. -/
def InvMessage.from_bytes (bytes : List Nat) : Option (Except NodeError InvMessage) :=
  match read_varint bytes with
  | none => none
  | some (Except.error e) => some (Except.error e)
  | some (Except.ok (count, bytes_read)) =>
    if count > MAX_INVENTORY_VECTOR then
      some (Except.error
        (NodeError.InvalidSizeOfField "The count is greater than the maximum allowed"))
    else
      match readInvEntries count (bytes.drop bytes_read) with
      | none => none
      | some (Except.error e) => some (Except.error e)
      | some (Except.ok inventory_entries) =>
        if count > 255 then
          some (Except.error (NodeError.FailedToConvert "Failed to convert into count"))
        else
          some (Except.ok { count := count, inventory := inventory_entries })

/-- Embeds `InvMessage::to_bytes`: the `u8` count as a single raw byte
(`count.to_le_bytes()`), then the serialized entries. -/
def InvMessage.to_bytes (inv : InvMessage) : Except NodeError (List Nat) :=
  Except.ok ((inv.count % 256) :: (inv.inventory.map InventoryEntry.to_bytes).flatten)

/-- A well-formed `inv` payload: the canonical CompactSize encoding of the
count followed by that many 36-byte entries (all-zero here). -/
def invPayload (count : Nat) : List Nat :=
  (CompactSize.new count).to_bytes ++ List.replicate (36 * count) 0

/-! ## Wallet account, `src/nodo-bitcoin/src/wallet/account.rs` and
`bitcoin_address.rs`.  `f64` amounts are modelled exactly as `Rat`; the
base58 decoding of addresses is the external front end, so functions take
the decoded address bytes. -/

/-- Script opcodes (`constants` module, not in the sources; standard
P2PKH opcodes). -/
def OP_DUP : Nat := 0x76

/-- Embeds `OP_HASH160`. -/
def OP_HASH160 : Nat := 0xa9

/-- Embeds `OP_EQUALVERIFY`. -/
def OP_EQUALVERIFY : Nat := 0x88

/-- Embeds `OP_CHECKSIG`. -/
def OP_CHECKSIG : Nat := 0xac

/-- Embeds `PK_HASH_LENGTH` push byte (20). -/
def PK_HASH_LENGTH : Nat := 0x14

/-- Embeds `Account::pk_script_to_pk_hash`: peel `OP_DUP`, `OP_HASH160`, the
length byte and the two trailing opcodes.  `Vec::remove` and indexing on a
too-short vector panic (`none`); a wrong leading opcode is a clean
`NotP2PKHScript` error. -/
def pk_script_to_pk_hash (pk_script : List Nat) : Option (Except NodeError (List Nat)) :=
  if pk_script.isEmpty then
    some (Except.error (NodeError.NotP2PKHScript "This Public Key Script is empty"))
  else if pk_script.getD 0 0 ≠ OP_DUP then
    some (Except.error (NodeError.NotP2PKHScript "This Public Key Script is not a P2PKH script"))
  else
    let l2 := pk_script.drop 1
    if l2 = [] then none
    else if l2.getD 0 0 ≠ OP_HASH160 then
      some (Except.error (NodeError.NotP2PKHScript "This Public Key Script is not a P2PKH script"))
    else
      let l3 := l2.drop 1
      if l3 = [] then none
      else
        let l4 := l3.drop 1
        if l4 = [] then none
        else
          let l5 := l4.dropLast
          if l5 = [] then none
          else some (Except.ok l5.dropLast)

/-- Embeds `Account::pk_hash_to_pk_script`. -/
def pk_hash_to_pk_script (pk_hash : List Nat) : List Nat :=
  [OP_DUP, OP_HASH160, PK_HASH_LENGTH] ++ pk_hash ++ [OP_EQUALVERIFY, OP_CHECKSIG]

/-- Embeds `BitcoinAddress::to_pk_hash`: drop the version byte and the 4 checksum
bytes.  (`Vec::remove` panics on addresses shorter than 5 bytes; the
wallet only forms addresses of 25 bytes, on which this model agrees with
the source.) -/
def BitcoinAddress.to_pk_hash (bitcoin_address : List Nat) : List Nat :=
  (bitcoin_address.drop 1).dropLast.dropLast.dropLast.dropLast

/-- Embeds `BitcoinAddress::to_pk_script`. -/
def BitcoinAddress.to_pk_script (bitcoin_address : List Nat) : List Nat :=
  pk_hash_to_pk_script (BitcoinAddress.to_pk_hash bitcoin_address)

/-- An account: address (decoded base58 bytes), WIF private key, and the
per-address UTXO set.  The two pending-transaction ledgers of the source
struct play no part in the embedded operations and are omitted. -/
structure Account where
  bitcoin_address : List Nat
  private_key : String
  utxo_set : UtxoSet
  deriving DecidableEq, Repr

/-- Embeds `UtxoSet::sum_of_outs`. -/
def sum_of_outs (tx_outs : List TxOutput) : Rat :=
  tx_outs.foldl (fun sum o => sum + o.valueF) 0

/-- All outputs of the set in iteration order (outer entry order, then the
entry's vector order), as the two nested loops of
`search_utxos_to_spend` visit them. -/
def UtxoSet.allOutputs (set : UtxoSet) : List TxOutput :=
  (set.map Prod.snd).flatten

/-- The accumulation loop of `UtxoSet::search_utxos_to_spend`: push
outputs in iteration order until their summed value reaches `amount`. -/
def searchGo (amount : Rat) : List TxOutput → List TxOutput → Except NodeError (List TxOutput)
  | [], _ => Except.error (NodeError.NotEnoughCoins "Not enough coins to spend")
  | o :: rest, acc =>
    let acc2 := acc ++ [o]
    if sum_of_outs acc2 ≥ amount then Except.ok acc2
    else searchGo amount rest acc2

/-- Embeds `UtxoSet::search_utxos_to_spend`. -/
def search_utxos_to_spend (set : UtxoSet) (amount : Rat) : Except NodeError (List TxOutput) :=
  searchGo amount (UtxoSet.allOutputs set) []

/-- The inner loop of `Account::calculate_balance` over one entry's
outputs: unparseable scripts are skipped, matching P2PKH outputs counted;
a panic inside `pk_script_to_pk_hash` propagates. -/
def balanceOutputs (users_pk_hash : List Nat) : List TxOutput → Option Rat
  | [] => some 0
  | o :: rest =>
    match pk_script_to_pk_hash o.pk_script with
    | none => none
    | some (Except.error _) => balanceOutputs users_pk_hash rest
    | some (Except.ok pk_hash) =>
      match balanceOutputs users_pk_hash rest with
      | none => none
      | some b => some (if pk_hash = users_pk_hash then o.valueF + b else b)

/-- Embeds `Account::calculate_balance`: fold the balance over the set. -/
def calculate_balance (users_pk_hash : List Nat) : UtxoSet → Option Rat
  | [] => some 0
  | (_, outs) :: rest =>
    match balanceOutputs users_pk_hash outs with
    | none => none
    | some b1 =>
      match calculate_balance users_pk_hash rest with
      | none => none
      | some b2 => some (b1 + b2)

/-- Embeds `Account::balance_for_user`. -/
def Account.balance_for_user (acc : Account) : Option Rat :=
  calculate_balance (BitcoinAddress.to_pk_hash acc.bitcoin_address) acc.utxo_set

/-- Embeds `Account::create_unsigned_inputs`: select the UTXOs to spend, make one
unsigned input per selected outpoint (`index` cast `as u32`), return them
with the total selected value and the selected scripts. -/
def Account.create_unsigned_inputs (acc : Account) (amount : Rat) :
    Except NodeError (List TxInput × Rat × List (List Nat)) :=
  match search_utxos_to_spend acc.utxo_set amount with
  | Except.error e => Except.error e
  | Except.ok tx_outs_to_spend =>
    Except.ok
      (tx_outs_to_spend.map (fun o => TxInput.new_unsigned o.tx_id (o.index % 4294967296) []),
        sum_of_outs tx_outs_to_spend,
        tx_outs_to_spend.map TxOutput.pk_script)

/-- Embeds `Account::create_unsigned_transaction`: reject when the balance does
not cover `amount`, else build the change output (index 0, back to the
sender, `total_in − amount`) and the target output (index 1,
`amount − fee`). -/
def Account.create_unsigned_transaction (acc : Account) (target_address : List Nat)
    (amount fee : Rat) : Option (Except NodeError (Transaction × List (List Nat))) :=
  match acc.balance_for_user with
  | none => none
  | some balance =>
    if balance < amount then
      some (Except.error (NodeError.NotEnoughCoins "Not enough coins to spend"))
    else
      match acc.create_unsigned_inputs amount with
      | Except.error e => some (Except.error e)
      | Except.ok (txs_inputs, value_spent, pk_scripts) =>
        let change := value_spent - amount
        let change_script := BitcoinAddress.to_pk_script acc.bitcoin_address
        let change_tx_out := TxOutput.new change change_script 0
        let target_script := BitcoinAddress.to_pk_script target_address
        let target_tx_out := TxOutput.new (amount - fee) target_script 1
        some (Except.ok
          (Transaction.new_unsigned txs_inputs [change_tx_out, target_tx_out], pk_scripts))

/-- An account with no coins, for the C8 witness. -/
def witAccount : Account :=
  { bitcoin_address := 0 :: (List.replicate 20 7 ++ List.replicate 4 0)
    private_key := ""
    utxo_set := [] }

/-- A one-coin unspent output paying the witness account's own P2PKH
script. -/
def witOut2 : TxOutput :=
  { value := 100000000
    pk_script_bytes := CompactSize.U8 25
    pk_script := pk_hash_to_pk_script (List.replicate 20 7)
    tx_id := [9]
    index := 0
    block_path := "" }

/-- An account owning exactly `witOut2`, for the C8 witness. -/
def witAccount2 : Account :=
  { bitcoin_address := 0 :: (List.replicate 20 7 ++ List.replicate 4 0)
    private_key := ""
    utxo_set := [([9], [witOut2])] }

/-- A decoded target address for the C8 witness. -/
def witTarget : List Nat := 1 :: (List.replicate 20 3 ++ List.replicate 4 0)

/-- The transaction `create_unsigned_transaction` builds for the C8
witness: one input spending `witOut2`, change of half a coin back to the
sender, two fifths of a coin to the target. -/
def witTx : Transaction :=
  Transaction.new_unsigned [TxInput.new_unsigned [9] 0 []]
    [TxOutput.new (1 - 1/2) (BitcoinAddress.to_pk_script witAccount2.bitcoin_address) 0,
     TxOutput.new (1/2 - 1/10) (BitcoinAddress.to_pk_script witTarget) 1]

theorem listLexLt_false_iff_le (a b : List Nat) :
    listLexLt a b = false ↔ listLexLe b a = true := by
  induction a generalizing b with
  | nil =>
    cases b <;> simp [listLexLt, listLexLe]
  | cons x xs ih =>
    cases b with
    | nil => simp [listLexLt, listLexLe]
    | cons y ys =>
      by_cases hxy : x < y
      · simp [listLexLt, listLexLe, hxy, Nat.lt_asymm hxy]
      · by_cases hyx : y < x
        · simp [listLexLt, listLexLe, hxy, hyx]
        · simp [listLexLt, listLexLe, hxy, hyx, ih]

theorem pairConcatHash_length (sha256d : List Nat → List Nat) :
    ∀ l, (pairConcatHash sha256d l).length = l.length / 2
  | [] => by simp [pairConcatHash]
  | [_] => by simp [pairConcatHash]
  | a :: b :: rest => by
    simp only [pairConcatHash, List.length_cons, pairConcatHash_length sha256d rest]
    omega

theorem padOdd_length_even (txs : List (List Nat)) : (padOdd txs).length % 2 = 0 := by
  unfold padOdd
  split
  · next h =>
    simp only [List.length_append, List.length_cons, List.length_nil]
    omega
  · next h => omega

theorem padOdd_length_le (txs : List (List Nat)) : (padOdd txs).length ≤ txs.length + 1 := by
  unfold padOdd
  by_cases h : txs.length % 2 = 1 <;> simp [h]

theorem padOdd_length_ge (txs : List (List Nat)) : txs.length ≤ (padOdd txs).length := by
  unfold padOdd
  by_cases h : txs.length % 2 = 1 <;> simp [h]

theorem build_merkle_tree_empty (sha256d : List Nat → List Nat) (fuel : Nat) :
    build_merkle_tree_from_hashes sha256d fuel [] = none := by
  induction fuel with
  | zero => rfl
  | succ n ih =>
    simp [build_merkle_tree_from_hashes, padOdd, pairConcatHash, ih]

theorem build_merkle_tree_terminates (sha256d : List Nat → List Nat) :
    ∀ fuel txs, txs ≠ [] → txs.length ≤ fuel →
      (build_merkle_tree_from_hashes sha256d (fuel + 1) txs).isSome := by
  intro fuel
  induction fuel using Nat.strong_induction_on with
  | _ fuel ih =>
    intro txs hne hlen
    by_cases h1 : txs.length = 1
    · simp [build_merkle_tree_from_hashes, h1]
    · have hlen2 : 2 ≤ txs.length := by
        cases txs with
        | nil => exact absurd rfl hne
        | cons a as => cases as with
          | nil => exact absurd rfl h1
          | cons b bs => simp
      have hfuel2 : 2 ≤ fuel := le_trans hlen2 hlen
      simp only [build_merkle_tree_from_hashes]
      rw [if_neg h1]
      set next := pairConcatHash sha256d (padOdd txs) with hnext
      have hnextlen : next.length = (padOdd txs).length / 2 := pairConcatHash_length _ _
      have hnl : next.length ≤ fuel - 1 := by
        have := padOdd_length_le txs
        omega
      have hnn : next ≠ [] := by
        intro hc
        have := padOdd_length_ge txs
        rw [hc] at hnextlen
        simp at hnextlen
        omega
      obtain ⟨fuel', rfl⟩ : ∃ f, fuel = f + 1 := ⟨fuel - 1, by omega⟩
      have hs := ih fuel' (by omega) next hnn (by omega)
      obtain ⟨v, hv⟩ := Option.isSome_iff_exists.mp hs
      simp [hv]

theorem position_of_mem (tx_id : List Nat) :
    ∀ l : List (List Nat), tx_id ∈ l →
      ∃ i, position tx_id l = some i ∧ i < l.length ∧ l.getD i [] = tx_id := by
  intro l hmem
  induction l with
  | nil => simp at hmem
  | cons h rest ih =>
    by_cases hh : h = tx_id
    · exact ⟨0, by simp [position, hh], by simp, by simp [hh]⟩
    · have hmem' : tx_id ∈ rest := by
        rcases List.mem_cons.mp hmem with h1 | h2
        · exact absurd h1.symm hh
        · exact h2
      obtain ⟨i, hpos, hlt, hget⟩ := ih hmem'
      exact ⟨i + 1, by simp [position, hh, hpos], by simp; omega, by simpa using hget⟩

theorem padOdd_getD (l : List (List Nat)) (j : Nat) (hj : j < l.length) :
    (padOdd l).getD j [] = l.getD j [] := by
  unfold padOdd
  split
  · exact List.getD_append _ _ _ _ hj
  · rfl

theorem storedLevel_getD (l : List (List Nat)) (j : Nat) (hj : j < l.length) :
    (storedLevel l).getD j [] = l.getD j [] := by
  unfold storedLevel
  split
  · rfl
  · exact padOdd_getD l j hj

theorem storedLevel_length_ge (l : List (List Nat)) : l.length ≤ (storedLevel l).length := by
  unfold storedLevel
  split
  · exact le_refl _
  · exact padOdd_length_ge l

theorem pairConcatHash_getD (sha256d : List Nat → List Nat) :
    ∀ (l : List (List Nat)) (j : Nat), 2 * j + 1 < l.length →
      (pairConcatHash sha256d l).getD j [] =
        sha256d (l.getD (2 * j) [] ++ l.getD (2 * j + 1) [])
  | a :: b :: rest, 0, _ => by simp [pairConcatHash]
  | a :: b :: rest, j + 1, h => by
    have hrest : 2 * j + 1 < rest.length := by
      simp only [List.length_cons] at h
      omega
    have := pairConcatHash_getD sha256d rest j hrest
    simp only [pairConcatHash, List.getD_cons_succ]
    rw [show 2 * (j + 1) = 2 * j + 1 + 1 by omega]
    simpa using this
  | [], j, h => by simp at h
  | [a], j, h => by simp only [List.length_cons, List.length_nil] at h; omega

theorem build_some_ne_nil (sha256d : List Nat → List Nat) :
    ∀ fuel txs levels, build_merkle_tree_from_hashes sha256d fuel txs = some levels →
      levels ≠ [] := by
  intro fuel
  induction fuel with
  | zero => intro txs levels h; simp [build_merkle_tree_from_hashes] at h
  | succ n ih =>
    intro txs levels h
    simp only [build_merkle_tree_from_hashes] at h
    split at h
    · cases h; simp
    · rw [Option.map_eq_some'] at h
      obtain ⟨rest, _, rfl⟩ := h
      simp

theorem build_head_eq (sha256d : List Nat → List Nat) :
    ∀ fuel txs levels, build_merkle_tree_from_hashes sha256d fuel txs = some levels →
      levels.headD [] = storedLevel txs := by
  intro fuel
  cases fuel with
  | zero => intro txs levels h; simp [build_merkle_tree_from_hashes] at h
  | succ n =>
    intro txs levels h
    simp only [build_merkle_tree_from_hashes] at h
    split at h
    · next h1 => cases h; simp [storedLevel, h1]
    · next h1 =>
      rw [Option.map_eq_some'] at h
      obtain ⟨rest, _, rfl⟩ := h
      simp [storedLevel, h1]

theorem getLastD_cons_of_ne_nil {α : Type} (a : α) (l : List α) (d : α) (h : l ≠ []) :
    (a :: l).getLastD d = l.getLastD d := by
  cases l with
  | nil => exact absurd rfl h
  | cons b bs => simp [List.getLastD_cons]

theorem left_ne_right : LEFT ≠ RIGHT := by decide

theorem build_fold_root (sha256d : List Nat → List Nat) :
    ∀ fuel txs levels idx, build_merkle_tree_from_hashes sha256d fuel txs = some levels →
      idx < (levels.headD []).length →
      (proofSiblingSteps levels.dropLast idx).foldl (proofStep sha256d)
          ((levels.headD []).getD idx []) = MerkleTree.root levels := by
  intro fuel
  induction fuel with
  | zero => intro txs levels idx h _; simp [build_merkle_tree_from_hashes] at h
  | succ n ih =>
    intro txs levels idx h hidx
    simp only [build_merkle_tree_from_hashes] at h
    split at h
    · next h1 =>
      cases h
      simp only [List.headD_cons] at hidx
      have hidx0 : idx = 0 := by omega
      subst hidx0
      simp [proofSiblingSteps, MerkleTree.root, List.dropLast]
    · next h1 =>
      rw [Option.map_eq_some'] at h
      obtain ⟨rest, hrest, rfl⟩ := h
      have hrestne : rest ≠ [] := build_some_ne_nil sha256d n _ rest hrest
      have htxsne : txs ≠ [] := by
        intro hc; subst hc
        rw [show padOdd ([] : List (List Nat)) = [] from rfl] at hrest
        rw [show pairConcatHash sha256d [] = [] from rfl] at hrest
        rw [build_merkle_tree_empty] at hrest
        cases hrest
      have hlen2 : 2 ≤ txs.length := by
        cases txs with
        | nil => exact absurd rfl htxsne
        | cons a as => cases as with
          | nil => exact absurd rfl h1
          | cons b bs => simp
      set padded := padOdd txs with hpad
      have hpadlen2 : 2 ≤ padded.length := le_trans hlen2 (padOdd_length_ge txs)
      have hpadeven : padded.length % 2 = 0 := padOdd_length_even txs
      simp only [List.headD_cons] at hidx
      have hdrop : (padded :: rest).dropLast = padded :: rest.dropLast := by
        cases rest with
        | nil => exact absurd rfl hrestne
        | cons r rs => rfl
      have hroot : MerkleTree.root (padded :: rest) = MerkleTree.root rest := by
        unfold MerkleTree.root
        rw [getLastD_cons_of_ne_nil _ _ _ hrestne]
      rw [hdrop, hroot]
      set next := pairConcatHash sha256d padded with hnext
      have hnextlen : next.length = padded.length / 2 := pairConcatHash_length _ _
      have hidx2 : idx / 2 < next.length := by omega
      have hheadrest : rest.headD [] = storedLevel next := build_head_eq sha256d n _ rest hrest
      have hidx2' : idx / 2 < (rest.headD []).length := by
        rw [hheadrest]
        exact lt_of_lt_of_le hidx2 (storedLevel_length_ge next)
      have hihyp := ih next rest (idx / 2) hrest hidx2'
      have hget : (rest.headD []).getD (idx / 2) [] = next.getD (idx / 2) [] := by
        rw [hheadrest]
        exact storedLevel_getD next (idx / 2) hidx2
      rw [hget] at hihyp
      by_cases hpar : idx % 2 = 0
      · have hi1 : idx + 1 < padded.length := by omega
        have e1 : proofSiblingSteps (padded :: rest.dropLast) idx
            = ((padded.getD (idx + 1) []).reverse, RIGHT)
              :: proofSiblingSteps rest.dropLast (idx / 2) := by
          simp [proofSiblingSteps, hpar]
        rw [e1, List.foldl_cons]
        have e2 : proofStep sha256d (((padded :: rest).headD []).getD idx [])
            ((padded.getD (idx + 1) []).reverse, RIGHT)
            = sha256d (padded.getD idx [] ++ padded.getD (idx + 1) []) := by
          simp [proofStep]
        have e3 : sha256d (padded.getD idx [] ++ padded.getD (idx + 1) [])
            = next.getD (idx / 2) [] := by
          rw [hnext, pairConcatHash_getD sha256d padded (idx / 2) (by omega)]
          have h2 : 2 * (idx / 2) = idx := by omega
          rw [h2]
        rw [e2, e3]
        exact hihyp
      · have hi1 : idx - 1 < padded.length := by omega
        have e1 : proofSiblingSteps (padded :: rest.dropLast) idx
            = ((padded.getD (idx - 1) []).reverse, LEFT)
              :: proofSiblingSteps rest.dropLast (idx / 2) := by
          simp [proofSiblingSteps, hpar]
        rw [e1, List.foldl_cons]
        have e2 : proofStep sha256d (((padded :: rest).headD []).getD idx [])
            ((padded.getD (idx - 1) []).reverse, LEFT)
            = sha256d (padded.getD (idx - 1) [] ++ padded.getD idx []) := by
          simp [proofStep, left_ne_right]
        have e3 : sha256d (padded.getD (idx - 1) [] ++ padded.getD idx [])
            = next.getD (idx / 2) [] := by
          rw [hnext, pairConcatHash_getD sha256d padded (idx / 2) (by omega)]
          have h2 : 2 * (idx / 2) = idx - 1 := by omega
          have h3 : 2 * (idx / 2) + 1 = idx := by omega
          rw [h3, h2]
        rw [e2, e3]
        exact hihyp

theorem build_input_ne_nil (sha256d : List Nat → List Nat) (fuel : Nat)
    (txs : List (List Nat)) (levels : List (List (List Nat)))
    (h : build_merkle_tree_from_hashes sha256d fuel txs = some levels) : txs ≠ [] := by
  intro hc; subst hc
  rw [build_merkle_tree_empty] at h
  cases h

theorem build_last_singleton (sha256d : List Nat → List Nat) :
    ∀ fuel txs levels, build_merkle_tree_from_hashes sha256d fuel txs = some levels →
      (levels.getLastD []).length = 1 := by
  intro fuel
  induction fuel with
  | zero => intro txs levels h; simp [build_merkle_tree_from_hashes] at h
  | succ n ih =>
    intro txs levels h
    simp only [build_merkle_tree_from_hashes] at h
    split at h
    · next h1 => cases h; simpa using h1
    · next h1 =>
      rw [Option.map_eq_some'] at h
      obtain ⟨rest, hrest, rfl⟩ := h
      rw [getLastD_cons_of_ne_nil _ _ _ (build_some_ne_nil sha256d n _ rest hrest)]
      exact ih _ rest hrest

theorem build_chain (sha256d : List Nat → List Nat) :
    ∀ fuel txs levels, build_merkle_tree_from_hashes sha256d fuel txs = some levels →
      ∀ i, i + 1 < levels.length →
        levels.getD (i + 1) [] = storedLevel (pairConcatHash sha256d (levels.getD i [])) := by
  intro fuel
  induction fuel with
  | zero => intro txs levels h; simp [build_merkle_tree_from_hashes] at h
  | succ n ih =>
    intro txs levels h i hi
    simp only [build_merkle_tree_from_hashes] at h
    split at h
    · next h1 => cases h; simp at hi
    · next h1 =>
      rw [Option.map_eq_some'] at h
      obtain ⟨rest, hrest, rfl⟩ := h
      cases i with
      | zero =>
        have hheadrest : rest.headD [] = storedLevel (pairConcatHash sha256d (padOdd txs)) :=
          build_head_eq sha256d n _ rest hrest
        cases rest with
        | nil => exact absurd rfl (build_some_ne_nil sha256d n _ _ hrest)
        | cons r rs =>
          simpa using hheadrest
      | succ j =>
        have hj : j + 1 < rest.length := by
          simp only [List.length_cons] at hi
          omega
        simpa using ih _ rest hrest j hj

theorem build_inter_len (sha256d : List Nat → List Nat) :
    ∀ fuel txs levels, build_merkle_tree_from_hashes sha256d fuel txs = some levels →
      ∀ i, i + 1 < levels.length → 2 ≤ (levels.getD i []).length := by
  intro fuel
  induction fuel with
  | zero => intro txs levels h; simp [build_merkle_tree_from_hashes] at h
  | succ n ih =>
    intro txs levels h i hi
    simp only [build_merkle_tree_from_hashes] at h
    split at h
    · next h1 => cases h; simp at hi
    · next h1 =>
      rw [Option.map_eq_some'] at h
      obtain ⟨rest, hrest, rfl⟩ := h
      cases i with
      | zero =>
        have htxsne : txs ≠ [] := by
          intro hc; subst hc
          rw [show padOdd ([] : List (List Nat)) = [] from rfl] at hrest
          rw [show pairConcatHash sha256d [] = [] from rfl] at hrest
          rw [build_merkle_tree_empty] at hrest
          cases hrest
        have hlen2 : 2 ≤ txs.length := by
          cases txs with
          | nil => exact absurd rfl htxsne
          | cons a as => cases as with
            | nil => exact absurd rfl h1
            | cons b bs => simp
        simpa using le_trans hlen2 (padOdd_length_ge txs)
      | succ j =>
        have hj : j + 1 < rest.length := by
          simp only [List.length_cons] at hi
          omega
        simpa using ih _ rest hrest j hj

theorem build_fuel_mono (sha256d : List Nat → List Nat) :
    ∀ fuel txs levels, build_merkle_tree_from_hashes sha256d fuel txs = some levels →
      build_merkle_tree_from_hashes sha256d (fuel + 1) txs = some levels := by
  intro fuel
  induction fuel with
  | zero => intro txs levels h; simp [build_merkle_tree_from_hashes] at h
  | succ n ih =>
    intro txs levels h
    simp only [build_merkle_tree_from_hashes] at h
    show (if txs.length = 1 then some [txs]
      else (build_merkle_tree_from_hashes sha256d (n + 1)
          (pairConcatHash sha256d (padOdd txs))).map (fun rest => padOdd txs :: rest))
        = some levels
    split at h <;> split
    · exact h
    · next h1 h2 => exact absurd h1 h2
    · next h1 h2 => exact absurd h2 h1
    · rw [Option.map_eq_some'] at h
      obtain ⟨rest, hrest, rfl⟩ := h
      rw [ih _ rest hrest]
      rfl

/-- C2 (amended): whenever `MerkleTree::new_from_hashes` returns a tree,
its level 0 is the given list of transaction ids with the last id
duplicated once when the list has odd length greater than one; each next
stored level is the pairwise `sha256d(left || right)` of the previous
stored level, itself padded the same way unless it is the final
single-node level; every level but the last has at least two nodes, the
last level has exactly one node, and that node is what `MerkleTree::root`
returns. -/
theorem claim_C2 (sha256d : List Nat → List Nat) (txs : List (List Nat))
    (levels : List (List (List Nat)))
    (h : MerkleTree.new_from_hashes sha256d txs = some levels) :
    levels.getD 0 [] = storedLevel txs ∧
    (∀ i, i + 1 < levels.length →
      levels.getD (i + 1) [] = storedLevel (pairConcatHash sha256d (levels.getD i []))) ∧
    (∀ i, i + 1 < levels.length → 2 ≤ (levels.getD i []).length) ∧
    (levels.getLastD []).length = 1 ∧
    MerkleTree.root levels = (levels.getLastD []).getD 0 [] := by
  unfold MerkleTree.new_from_hashes at h
  have hne : levels ≠ [] := build_some_ne_nil sha256d _ _ _ h
  have hhd : levels.headD [] = levels.getD 0 [] := by
    cases levels with
    | nil => exact absurd rfl hne
    | cons a as => rfl
  refine ⟨?_, build_chain sha256d _ _ _ h, build_inter_len sha256d _ _ _ h,
    build_last_singleton sha256d _ _ _ h, rfl⟩
  rw [← hhd]
  exact build_head_eq sha256d _ _ _ h

/-- C2, counterexample to the claim as stated: for the three leaves
`[[1], [2], [3]]` the tree is built, but its level 0 is the padded list
`[[1], [2], [3], [3]]`, not the given list. -/
theorem claim_C2_counterexample :
    (MerkleTree.new_from_hashes testHash [[1], [2], [3]]).map (fun levels => levels.getD 0 [])
        = some [[1], [2], [3], [3]] ∧
      ([[1], [2], [3], [3]] : List (List Nat)) ≠ [[1], [2], [3]] := by decide

/-- C2, witness: the amended statement evaluated on the three-leaf tree. -/
theorem claim_C2_witness :
    ([[[1], [2], [3], [3]], [[2], [2]], [[2]]] : List (List (List Nat))).getD 0 []
      = storedLevel [[1], [2], [3]] :=
  (claim_C2 testHash [[1], [2], [3]] [[[1], [2], [3], [3]], [[2], [2]], [[2]]] (by decide)).1

/-- C3: for every Merkle tree produced by `new_from_hashes` and every
transaction id present at its leaf level, `MerkleProof::for_tx_in_block`
(its tree-walking core) produces a proof whose
`MerkleProof::build_merkle_root` fold yields exactly the tree's root. -/
theorem claim_C3 (sha256d : List Nat → List Nat) (txs : List (List Nat))
    (levels : List (List (List Nat))) (tx_id : List Nat)
    (hbuild : MerkleTree.new_from_hashes sha256d txs = some levels)
    (hmem : tx_id ∈ levels.getD 0 []) :
    ∃ p, MerkleProof.for_tx_in_tree tx_id levels = Except.ok p ∧
      MerkleProof.build_merkle_root sha256d p = MerkleTree.root levels := by
  unfold MerkleTree.new_from_hashes at hbuild
  obtain ⟨i, hpos, hlt, hget⟩ := position_of_mem tx_id _ hmem
  have hne : levels ≠ [] := build_some_ne_nil sha256d _ _ _ hbuild
  have hhd : levels.headD [] = levels.getD 0 [] := by
    cases levels with
    | nil => exact absurd rfl hne
    | cons a as => rfl
  refine ⟨⟨(tx_id.reverse, if i % 2 = 0 then LEFT else RIGHT) ::
      proofSiblingSteps levels.dropLast i⟩, ?_, ?_⟩
  · simp only [MerkleProof.for_tx_in_tree, hpos]
  · unfold MerkleProof.build_merkle_root
    simp only [List.drop_succ_cons, List.drop_zero, List.getD_cons_zero, List.reverse_reverse]
    have hfold := build_fold_root sha256d _ _ _ i hbuild (by rw [hhd]; exact hlt)
    rw [hhd, hget] at hfold
    exact hfold

/-- C3, witness: the inclusion proof for leaf `[2]` of the three-leaf tree
folds back to the root. -/
theorem claim_C3_witness :
    ∃ p, MerkleProof.for_tx_in_tree [2] [[[1], [2], [3], [3]], [[2], [2]], [[2]]]
        = Except.ok p ∧
      MerkleProof.build_merkle_root testHash p
        = MerkleTree.root [[[1], [2], [3], [3]], [[2], [2]], [[2]]] :=
  claim_C3 testHash [[1], [2], [3]] [[[1], [2], [3], [3]], [[2], [2]], [[2]]] [2]
    (by decide) (by decide)

/-- C10: the Merkle tree construction terminates on every non-empty leaf
list (the fuel `length + 1` suffices), and on the empty list the recursion
never terminates: every fuel amount is exhausted. -/
theorem claim_C10 (sha256d : List Nat → List Nat) :
    (∀ txs : List (List Nat), txs ≠ [] →
      (MerkleTree.new_from_hashes sha256d txs).isSome = true) ∧
    (∀ fuel, build_merkle_tree_from_hashes sha256d fuel [] = none) :=
  ⟨fun txs h => build_merkle_tree_terminates sha256d txs.length txs h (le_refl _),
   build_merkle_tree_empty sha256d⟩

/-- C10, witness: termination on a one-leaf list, divergence on `[]`. -/
theorem claim_C10_witness :
    (([[5]] : List (List Nat)) ≠ []) ∧
    (MerkleTree.new_from_hashes testHash [[5]]).isSome = true ∧
    build_merkle_tree_from_hashes testHash 3 [] = none :=
  ⟨by decide, (claim_C10 testHash).1 [[5]] (by decide), (claim_C10 testHash).2 3⟩

set_option maxRecDepth 8192 in
theorem target_indices_iff : ∀ e < 256,
    ((u8wadd (u8wsub 32 e) 2 < 32 ∧ u8wadd (u8wsub 31 e) 2 < 32 ∧
        u8wadd (u8wsub 30 e) 2 < 32) ↔ (3 ≤ e ∧ e ≤ 32)) := by decide

theorem target_threshold_isSome_iff (n_bits : Nat) :
    (BlockHeader.calculate_target_threshold_nbits n_bits).isSome = true
      ↔ (3 ≤ nBitsExponent n_bits ∧ nBitsExponent n_bits ≤ 32) := by
  have he : nBitsExponent n_bits < 256 := Nat.mod_lt _ (by norm_num)
  have hkey := target_indices_iff (nBitsExponent n_bits) he
  have hexp : (u32ToLeBytes n_bits).getD 3 0 = nBitsExponent n_bits := rfl
  rw [← hkey]
  unfold BlockHeader.calculate_target_threshold_nbits
  simp only [hexp]
  by_cases h1 : u8wadd (u8wsub 32 (nBitsExponent n_bits)) 2 < 32
  · by_cases h2 : u8wadd (u8wsub 31 (nBitsExponent n_bits)) 2 < 32
    · by_cases h3 : u8wadd (u8wsub 30 (nBitsExponent n_bits)) 2 < 32
      · simp [setByte, h1, h2, h3]
      · simp [setByte, h1, h2, h3]
    · simp [setByte, h1, h2]
  · simp [setByte, h1]

/-- C9: the compact-target unpacking is total exactly when the exponent
byte of `n_bits` lies in `[3, 32]`; outside that range an index falls out
of the 32-byte array and the computation panics, making
`validate_proof_of_work` partial over adversarial headers; inside the range
every access is in bounds. -/
theorem claim_C9 (bh : BlockHeader) :
    ((validate_proof_of_work bh).isSome = true
      ↔ (3 ≤ nBitsExponent bh.n_bits ∧ nBitsExponent bh.n_bits ≤ 32)) ∧
    ((bh.calculate_target_threshold).isSome = true
      ↔ (3 ≤ nBitsExponent bh.n_bits ∧ nBitsExponent bh.n_bits ≤ 32)) := by
  have hth := target_threshold_isSome_iff bh.n_bits
  constructor
  · rw [← hth]
    unfold validate_proof_of_work BlockHeader.calculate_target_threshold
    cases htgt : BlockHeader.calculate_target_threshold_nbits bh.n_bits with
    | none => simp
    | some t =>
      simp only [htgt, Option.some_bind]
      split <;> simp
  · exact hth

/-- C1: for a header parsed from its 80-byte serialization (so its cached
hash is the double-SHA-256 of those bytes), and whose `n_bits` exponent is
in the total range of the target decoding, `validate_proof_of_work` returns
`Ok` exactly when the byte-reversed hash is lexicographically at most the
unpacked 32-byte target, and returns `InvalidProofOfWork` otherwise. -/
theorem claim_C1 (sha256d : List Nat → List Nat) (b : List Nat) (bh : BlockHeader)
    (hparse : BlockHeader.from_bytes sha256d b = Except.ok bh)
    (hexp3 : 3 ≤ nBitsExponent bh.n_bits) (hexp32 : nBitsExponent bh.n_bits ≤ 32) :
    ∃ target, bh.calculate_target_threshold = some target ∧
      (validate_proof_of_work bh = some (Except.ok ())
        ↔ listLexLe ((sha256d b).reverse) target = true) ∧
      (validate_proof_of_work bh
          = some (Except.error (NodeError.InvalidProofOfWork "Invalid target threshold"))
        ↔ listLexLe ((sha256d b).reverse) target = false) := by
  have hhash : bh.hash = sha256d b := by
    unfold BlockHeader.from_bytes at hparse
    split at hparse
    · cases hparse
    · cases hparse; rfl
  have hsome : (bh.calculate_target_threshold).isSome = true := by
    unfold BlockHeader.calculate_target_threshold
    rw [target_threshold_isSome_iff]
    exact ⟨hexp3, hexp32⟩
  obtain ⟨target, htgt⟩ := Option.isSome_iff_exists.mp hsome
  have hiff := listLexLt_false_iff_le target ((sha256d b).reverse)
  refine ⟨target, htgt, ?_, ?_⟩
  · unfold validate_proof_of_work
    rw [htgt, Option.some_bind, hhash]
    cases hlt : listLexLt target ((sha256d b).reverse) with
    | false =>
      have hle : listLexLe ((sha256d b).reverse) target = true := hiff.mp hlt
      simp [hlt, hle]
    | true =>
      have hle : listLexLe ((sha256d b).reverse) target = false := by
        cases hle2 : listLexLe ((sha256d b).reverse) target with
        | false => rfl
        | true => rw [← hiff] at hle2; rw [hle2] at hlt; cases hlt
      simp [hlt, hle]
  · unfold validate_proof_of_work
    rw [htgt, Option.some_bind, hhash]
    cases hlt : listLexLt target ((sha256d b).reverse) with
    | false =>
      have hle : listLexLe ((sha256d b).reverse) target = true := hiff.mp hlt
      simp [hlt, hle]
    | true =>
      have hle : listLexLe ((sha256d b).reverse) target = false := by
        cases hle2 : listLexLe ((sha256d b).reverse) target with
        | false => rfl
        | true => rw [← hiff] at hle2; rw [hle2] at hlt; cases hlt
      simp [hlt, hle]

/-- C1, witness: the theorem applied to a concrete 80-byte header. -/
theorem claim_C1_witness :
    ∃ target, witHeader.calculate_target_threshold = some target ∧
      (validate_proof_of_work witHeader = some (Except.ok ())
        ↔ listLexLe ((testHash witHeaderBytes).reverse) target = true) ∧
      (validate_proof_of_work witHeader
          = some (Except.error (NodeError.InvalidProofOfWork "Invalid target threshold"))
        ↔ listLexLe ((testHash witHeaderBytes).reverse) target = false) :=
  claim_C1 testHash witHeaderBytes witHeader (by decide) (by decide) (by decide)

theorem filterByTimestamp_of_all_parse (sha256d : List Nat → List Nat) (ts : Nat) :
    ∀ l : List (List Nat), (∀ b ∈ l, b.length = 80) →
      filterByTimestamp sha256d ts l
        = Except.ok (l.filter (fun b => decide (ts ≤ headerTimestampBytes b))) := by
  intro l hl
  induction l with
  | nil => rfl
  | cons b rest ih =>
    have hb : b.length = 80 := hl b (List.mem_cons_self b rest)
    have hparse : BlockHeader.from_bytes sha256d b
        = Except.ok
          { version := i32FromLeBytes (b.getD 0 0) (b.getD 1 0) (b.getD 2 0) (b.getD 3 0)
            prev_blockhash := (b.drop 4).take 32
            merkle_root_hash := (b.drop 36).take 32
            timestamp := headerTimestampBytes b
            n_bits := u32FromLeBytes (b.getD 72 0) (b.getD 73 0) (b.getD 74 0) (b.getD 75 0)
            nonce := u32FromLeBytes (b.getD 76 0) (b.getD 77 0) (b.getD 78 0) (b.getD 79 0)
            hash := sha256d b } := by
      unfold BlockHeader.from_bytes
      rw [if_neg (by omega)]
      rfl
    have ihr := ih (fun x hx => hl x (List.mem_cons_of_mem b hx))
    unfold filterByTimestamp
    rw [hparse, ihr]
    by_cases hts : ts ≤ headerTimestampBytes b
    · simp [List.filter_cons, hts, ge_iff_le]
    · simp [List.filter_cons, hts, ge_iff_le]

/-- C4: when a received headers batch has exactly `MAX_HEADERS_COUNT`
(2000) entries, all of them are appended and another `getheaders` round
follows; when it has fewer, only the entries whose timestamp is at least
the last stored header's timestamp are appended and the download
terminates. -/
theorem claim_C4 (sha256d : List Nat → List Nat) (block_headers : List (List Nat))
    (last_bh : List Nat) (last_header : BlockHeader)
    (hlast : BlockHeader.from_bytes sha256d last_bh = Except.ok last_header)
    (hlen : ∀ b ∈ block_headers, b.length = 80) :
    (block_headers.length = MAX_HEADERS_COUNT →
      handle_headers_batch sha256d block_headers last_bh
        = Except.ok (block_headers, true)) ∧
    (block_headers.length < MAX_HEADERS_COUNT →
      handle_headers_batch sha256d block_headers last_bh
        = Except.ok (block_headers.filter
            (fun b => decide (last_header.timestamp ≤ headerTimestampBytes b)), false)) := by
  constructor
  · intro hfull
    unfold handle_headers_batch receive_headers_message
    rw [hlast]
    simp only []
    rw [if_neg (by rw [hfull]; exact lt_irrefl _)]
    simp [hfull]
  · intro hshort
    unfold handle_headers_batch receive_headers_message
    rw [hlast]
    simp only []
    rw [if_pos hshort]
    rw [filterByTimestamp_of_all_parse sha256d last_header.timestamp block_headers hlen]
    simp [Nat.ne_of_lt hshort]

/-- C4, witness: a one-element batch (fewer than 2000) whose header
timestamp 1 is at least the stored timestamp 0 is appended in full, and
the download terminates. -/
theorem claim_C4_witness :
    handle_headers_batch testHash [witHeaderBytesTs1] witHeaderBytes
      = Except.ok ([witHeaderBytesTs1], false) :=
  ((claim_C4 testHash [witHeaderBytesTs1] witHeaderBytes witHeader (by decide)
    (by decide)).2 (by decide)).trans (by decide)

theorem find?_insert_self : ∀ (set : UtxoSet) (k : List Nat) (v : List TxOutput),
    UtxoSet.find? (UtxoSet.insert set k v) k = some v
  | [], k, v => by simp [UtxoSet.insert, UtxoSet.find?]
  | (k', v') :: rest, k, v => by
    by_cases h : k' = k
    · simp [UtxoSet.insert, UtxoSet.find?, h]
    · simp [UtxoSet.insert, UtxoSet.find?, h, find?_insert_self rest k v]

theorem find?_eq_none_of_not_mem : ∀ (set : UtxoSet) (k : List Nat),
    k ∉ set.map Prod.fst → UtxoSet.find? set k = none
  | [], _, _ => rfl
  | (k', v') :: rest, k, h => by
    have hne : k' ≠ k := by
      intro hc; subst hc
      exact h (by simp)
    have hrest : k ∉ rest.map Prod.fst := by
      intro hc
      exact h (by simp [hc])
    simp [UtxoSet.find?, hne, find?_eq_none_of_not_mem rest k hrest]

theorem find?_remove_self_of_nodup : ∀ (set : UtxoSet) (k : List Nat),
    (set.map Prod.fst).Nodup → UtxoSet.find? (UtxoSet.remove set k) k = none
  | [], _, _ => rfl
  | (k', v') :: rest, k, hnd => by
    rw [List.map_cons] at hnd
    have hnd' := List.nodup_cons.mp hnd
    by_cases h : k' = k
    · subst h
      simp only [UtxoSet.remove, if_pos rfl]
      exact find?_eq_none_of_not_mem rest k' hnd'.1
    · simp [UtxoSet.remove, UtxoSet.find?, h,
        find?_remove_self_of_nodup rest k hnd'.2]

theorem any_index_eq_false_of_not_mem (idx : Nat) :
    ∀ outs : List TxOutput, idx ∉ outs.map TxOutput.index →
      outs.any (fun o => o.index == idx) = false
  | [], _ => rfl
  | o :: rest, h => by
    have h1 : o.index ≠ idx := by
      intro hc
      exact h (by simp [hc])
    have h2 : idx ∉ rest.map TxOutput.index := by
      intro hc
      exact h (by simp [hc])
    simp [List.any_cons, h1, any_index_eq_false_of_not_mem idx rest h2]

theorem removeOutputAtIndex_no_match (idx : Nat) :
    ∀ outs : List TxOutput, (outs.map TxOutput.index).Nodup →
      (removeOutputAtIndex idx outs).any (fun o => o.index == idx) = false
  | [], _ => rfl
  | o :: rest, hnd => by
    rw [List.map_cons] at hnd
    have hnd' := List.nodup_cons.mp hnd
    by_cases h : o.index = idx
    · subst h
      simp only [removeOutputAtIndex, if_pos rfl]
      exact any_index_eq_false_of_not_mem o.index rest hnd'.1
    · simp only [removeOutputAtIndex, if_neg h]
      simp [List.any_cons, h, removeOutputAtIndex_no_match idx rest hnd'.2]

/-- C5: `UtxoSet::update` applies blocks as an in-order fold of its
per-transaction step, and each step behaves as claimed: an input whose
`(prev_tx_id, prev_index)` is in the index (with the map's keys distinct,
as in a `HashMap`, and the stored output indexes distinct) leaves no output
with that outpoint behind; a vector emptied by the removal has its tx id
removed entirely; and the transaction's own (path-tagged) outputs end up
inserted under its own tx id. -/
theorem claim_C5 (sha256d : List Nat → List Nat) :
    (∀ (set : UtxoSet) (blocks : List (String × List Transaction)),
      UtxoSet.updateBlocks sha256d set blocks
        = blocks.foldl (fun s blk =>
            blk.2.foldl (UtxoSet.processTransaction sha256d blk.1) s) set) ∧
    (∀ (set : UtxoSet) (op : Outpoint), (set.map Prod.fst).Nodup →
      UtxoSet.hasOutpoint set op.tx_id op.index = true →
      (∀ outs, UtxoSet.find? set op.tx_id = some outs → (outs.map TxOutput.index).Nodup) →
      UtxoSet.hasOutpoint (UtxoSet.consumeInput set op) op.tx_id op.index = false) ∧
    (∀ (set : UtxoSet) (op : Outpoint) (outs : List TxOutput), (set.map Prod.fst).Nodup →
      UtxoSet.find? set op.tx_id = some outs →
      outs.any (fun o => o.index == op.index) = true →
      removeOutputAtIndex op.index outs = [] →
      UtxoSet.find? (UtxoSet.consumeInput set op) op.tx_id = none) ∧
    (∀ (block_path : String) (set : UtxoSet) (tx : Transaction),
      UtxoSet.find? (UtxoSet.processTransaction sha256d block_path set tx)
          (Transaction.tx_id sha256d (tx.add_block_path block_path))
        = some ((tx.add_block_path block_path).tx_outputs)) := by
  refine ⟨fun set blocks => rfl, ?_, ?_, ?_⟩
  · intro set op hkeys hhas hnodup
    unfold UtxoSet.consumeInput
    cases hfind : UtxoSet.find? set op.tx_id with
    | none =>
      unfold UtxoSet.hasOutpoint at hhas
      rw [hfind] at hhas
      cases hhas
    | some outs =>
      have hany : outs.any (fun o => o.index == op.index) = true := by
        unfold UtxoSet.hasOutpoint at hhas
        rw [hfind] at hhas
        exact hhas
      simp only []
      rw [if_pos hany]
      by_cases hempty : removeOutputAtIndex op.index outs = []
      · rw [if_pos hempty]
        unfold UtxoSet.hasOutpoint
        rw [find?_remove_self_of_nodup set op.tx_id hkeys]
      · rw [if_neg hempty]
        unfold UtxoSet.hasOutpoint
        rw [find?_insert_self]
        exact removeOutputAtIndex_no_match op.index outs (hnodup outs hfind)
  · intro set op outs hkeys hfind hany hempty
    unfold UtxoSet.consumeInput
    rw [hfind]
    simp only []
    rw [if_pos hany, if_pos hempty]
    exact find?_remove_self_of_nodup set op.tx_id hkeys
  · intro block_path set tx
    unfold UtxoSet.processTransaction
    exact find?_insert_self _ _ _

/-- C5, witness: spending the only output of tx `[1]` removes the tx id
from the index entirely. -/
theorem claim_C5_witness :
    UtxoSet.find? (UtxoSet.consumeInput [([1], [witOut])] ⟨[1], 0⟩) [1] = none :=
  (claim_C5 testHash).2.2.1 [([1], [witOut])] ⟨[1], 0⟩ [witOut]
    (by decide) (by decide) (by decide) (by decide)

/-- C6, counterexample to the claim as stated: a fetched block whose
`validate_and_save_block` fails sends nothing on the failure channel and
leaves the per-worker counter unchanged (the claim predicts the hash `[7]`
queued and the counter at 1). -/
theorem claim_C6_counterexample :
    (download_and_save (Except.ok [0])
        (fun _ => Except.error (NodeError.InvalidProofOfWork "x")) [7] 0).failed_sent = [] ∧
    (download_and_save (Except.ok [0])
        (fun _ => Except.error (NodeError.InvalidProofOfWork "x")) [7] 0).failed_count = 0 ∧
    ¬ ((download_and_save (Except.ok [0])
          (fun _ => Except.error (NodeError.InvalidProofOfWork "x")) [7] 0).failed_sent = [[7]] ∧
       (download_and_save (Except.ok [0])
          (fun _ => Except.error (NodeError.InvalidProofOfWork "x")) [7] 0).failed_count = 0 + 1) := by
  refine ⟨rfl, rfl, ?_⟩
  intro h
  cases h.1

/-- C6 (amended): a failed fetch queues the hash on the failure channel,
increments the per-worker failure counter and reports
`FailedToDownloadBlock`; a validation failure after a successful fetch is
only printed — nothing is queued, the counter is unchanged, the iteration
reports success.  The worker exits, clearing the read timeout, exactly when
the counter exceeds `MAX_FAILED_COUNT` (or the hash channel closes). -/
theorem claim_C6 (validate : List Nat → Except NodeError Unit) (block_hash : List Nat)
    (failed_count MAX_FAILED_COUNT : Nat) :
    (∀ e, download_and_save (Except.error e) validate block_hash failed_count
      = { result := Except.error (NodeError.FailedToDownloadBlock "Failed to download block")
          failed_count := failed_count + 1
          failed_sent := [block_hash] }) ∧
    (∀ block, download_and_save (Except.ok block) validate block_hash failed_count
      = { result := Except.ok (), failed_count := failed_count, failed_sent := [] }) ∧
    (failed_count > MAX_FAILED_COUNT →
      worker_step (some ()) failed_count MAX_FAILED_COUNT = (false, true)) ∧
    (failed_count ≤ MAX_FAILED_COUNT →
      worker_step (some ()) failed_count MAX_FAILED_COUNT = (true, false)) ∧
    worker_step none failed_count MAX_FAILED_COUNT = (false, true) := by
  refine ⟨fun e => rfl, ?_, ?_, ?_, rfl⟩
  · intro block
    simp only [download_and_save]
    cases validate block <;> rfl
  · intro h
    unfold worker_step
    rw [if_pos h]
  · intro h
    unfold worker_step
    rw [if_neg (by omega)]

/-- C6, witness: with a counter of 3 and `MAX_FAILED_COUNT` 2 the worker
exits and the timeout is cleared. -/
theorem claim_C6_witness : worker_step (some ()) 3 2 = (false, true) :=
  (claim_C6 (fun _ => Except.ok ()) [7] 3 2).2.2.1 (by decide)

theorem readInvEntries_ok : ∀ (n : Nat) (bytes : List Nat), 36 * n ≤ bytes.length →
    ∃ entries, readInvEntries n bytes = some (Except.ok entries) := by
  intro n
  induction n with
  | zero => intro bytes _; exact ⟨[], rfl⟩
  | succ m ih =>
    intro bytes hlen
    have h36 : ¬ bytes.length < INVENTORY_LENGTH := by
      unfold INVENTORY_LENGTH
      omega
    have htake : (bytes.take INVENTORY_LENGTH).length = 36 := by
      unfold INVENTORY_LENGTH
      rw [List.length_take]
      omega
    have hentry : InventoryEntry.from_bytes (bytes.take INVENTORY_LENGTH)
        = Except.ok
          { inv_type := u32FromLeBytes ((bytes.take INVENTORY_LENGTH).getD 0 0)
              ((bytes.take INVENTORY_LENGTH).getD 1 0) ((bytes.take INVENTORY_LENGTH).getD 2 0)
              ((bytes.take INVENTORY_LENGTH).getD 3 0)
            hash := ((bytes.take INVENTORY_LENGTH).drop 4).take 32 } := by
      unfold InventoryEntry.from_bytes
      rw [if_neg (by omega), if_neg (by omega)]
    have hdrop : 36 * m ≤ (bytes.drop INVENTORY_LENGTH).length := by
      rw [List.length_drop]
      unfold INVENTORY_LENGTH
      omega
    obtain ⟨entries, hrec⟩ := ih (bytes.drop INVENTORY_LENGTH) hdrop
    refine ⟨InventoryEntry.mk (u32FromLeBytes ((bytes.take INVENTORY_LENGTH).getD 0 0)
      ((bytes.take INVENTORY_LENGTH).getD 1 0) ((bytes.take INVENTORY_LENGTH).getD 2 0)
      ((bytes.take INVENTORY_LENGTH).getD 3 0))
      (((bytes.take INVENTORY_LENGTH).drop 4).take 32) :: entries, ?_⟩
    unfold readInvEntries
    rw [if_neg h36, hentry]
    simp only []
    rw [hrec]

theorem read_varint_fd (b1 b2 : Nat) (rest : List Nat) :
    read_varint (0xFD :: b1 :: b2 :: rest) = some (Except.ok (u16FromLeBytes b1 b2, 3)) := by
  unfold read_varint
  simp only []
  rw [if_pos trivial]
  rw [if_neg (by simp)]
  rfl

/-- C7: the inv codec does not round-trip over well-formed payloads: for a
payload with 300 entries — below the documented 50000-entry cap —
`InvMessage::from_bytes` fails with `FailedToConvert`, because the struct
stores the count as a `u8` (and `to_bytes` writes that `u8` as a single
raw byte instead of a CompactSize). -/
theorem claim_C7 :
    InvMessage.from_bytes (invPayload 300)
      = some (Except.error (NodeError.FailedToConvert "Failed to convert into count")) := by
  have hpay : invPayload 300 = 0xFD :: 44 :: 1 :: List.replicate (36 * 300) 0 := by
    unfold invPayload
    rfl
  rw [hpay]
  unfold InvMessage.from_bytes
  rw [read_varint_fd]
  have hcount : u16FromLeBytes 44 1 = 300 := by norm_num [u16FromLeBytes]
  rw [hcount]
  simp only []
  rw [if_neg (by norm_num [MAX_INVENTORY_VECTOR])]
  have hdrop : (0xFD :: 44 :: 1 :: List.replicate (36 * 300) 0).drop 3
      = List.replicate (36 * 300) 0 := rfl
  rw [hdrop]
  obtain ⟨entries, hentries⟩ := readInvEntries_ok 300 (List.replicate (36 * 300) 0)
    (by rw [List.length_replicate])
  rw [hentries]
  simp only []
  rw [if_pos (by norm_num)]

theorem valueF_nonneg (o : TxOutput) (h : 0 ≤ o.value) : 0 ≤ o.valueF := by
  unfold TxOutput.valueF SATOSHI_CONVERSION_COEFFICIENT
  apply div_nonneg
  · exact_mod_cast h
  · norm_num

theorem sum_of_outs_foldl (l : List TxOutput) : ∀ a : Rat,
    l.foldl (fun sum o => sum + o.valueF) a = a + sum_of_outs l := by
  induction l with
  | nil => intro a; simp [sum_of_outs]
  | cons o rest ih =>
    intro a
    simp only [sum_of_outs, List.foldl_cons] at ih ⊢
    rw [ih (a + o.valueF), ih (0 + o.valueF)]
    ring

theorem sum_of_outs_cons (o : TxOutput) (rest : List TxOutput) :
    sum_of_outs (o :: rest) = o.valueF + sum_of_outs rest := by
  have h : sum_of_outs (o :: rest)
      = rest.foldl (fun sum o => sum + o.valueF) (0 + o.valueF) := rfl
  rw [h, sum_of_outs_foldl]
  ring

theorem sum_of_outs_append (l1 l2 : List TxOutput) :
    sum_of_outs (l1 ++ l2) = sum_of_outs l1 + sum_of_outs l2 := by
  unfold sum_of_outs
  rw [List.foldl_append, sum_of_outs_foldl]
  rfl

theorem balanceOutputs_le (u : List Nat) : ∀ outs : List TxOutput,
    (∀ o ∈ outs, 0 ≤ o.value) →
    (∀ o ∈ outs, (pk_script_to_pk_hash o.pk_script).isSome = true) →
    ∃ b, balanceOutputs u outs = some b ∧ b ≤ sum_of_outs outs := by
  intro outs
  induction outs with
  | nil => exact fun _ _ => ⟨0, rfl, by simp [sum_of_outs]⟩
  | cons o rest ih =>
    intro hval hscript
    have hv : 0 ≤ o.valueF := valueF_nonneg o (hval o (by simp))
    obtain ⟨b, hb, hble⟩ := ih (fun x hx => hval x (by simp [hx]))
      (fun x hx => hscript x (by simp [hx]))
    have hs := hscript o (by simp)
    obtain ⟨r, hr⟩ := Option.isSome_iff_exists.mp hs
    cases r with
    | error e =>
      refine ⟨b, ?_, ?_⟩
      · unfold balanceOutputs
        rw [hr]
        exact hb
      · rw [sum_of_outs_cons]
        linarith
    | ok pk =>
      by_cases hpk : pk = u
      · refine ⟨o.valueF + b, ?_, ?_⟩
        · unfold balanceOutputs
          rw [hr, hb]
          simp [hpk]
        · rw [sum_of_outs_cons]
          linarith
      · refine ⟨b, ?_, ?_⟩
        · unfold balanceOutputs
          rw [hr, hb]
          simp [hpk]
        · rw [sum_of_outs_cons]
          linarith

theorem calculate_balance_le (u : List Nat) : ∀ set : UtxoSet,
    (∀ o ∈ UtxoSet.allOutputs set, 0 ≤ o.value) →
    (∀ o ∈ UtxoSet.allOutputs set, (pk_script_to_pk_hash o.pk_script).isSome = true) →
    ∃ b, calculate_balance u set = some b ∧ b ≤ sum_of_outs (UtxoSet.allOutputs set) := by
  intro set
  induction set with
  | nil => exact fun _ _ => ⟨0, rfl, by simp [sum_of_outs, UtxoSet.allOutputs]⟩
  | cons entry rest ih =>
    intro hval hscript
    obtain ⟨k, outs⟩ := entry
    have hall : UtxoSet.allOutputs ((k, outs) :: rest) = outs ++ UtxoSet.allOutputs rest := by
      simp [UtxoSet.allOutputs]
    rw [hall] at hval hscript
    obtain ⟨b1, hb1, hle1⟩ := balanceOutputs_le u outs
      (fun x hx => hval x (List.mem_append_left _ hx))
      (fun x hx => hscript x (List.mem_append_left _ hx))
    obtain ⟨b2, hb2, hle2⟩ := ih
      (fun x hx => hval x (List.mem_append_right _ hx))
      (fun x hx => hscript x (List.mem_append_right _ hx))
    refine ⟨b1 + b2, ?_, ?_⟩
    · unfold calculate_balance
      rw [hb1, hb2]
    · rw [hall, sum_of_outs_append]
      exact add_le_add hle1 hle2

/-- C8: when `create_unsigned_transaction` succeeds, the transaction has
exactly two outputs — index 0 paying `total_in − amount` back to the
sender's own P2PKH script and index 1 paying `amount − fee` to the target
address — with `total_in` the summed value of the UTXOs selected by
`search_utxos_to_spend(amount)`; every input references one selected
outpoint with an empty signature script, and the returned scripts are the
selected outputs' scripts.  When the account's coins (all of nonnegative
value, with cleanly-classifiable scripts) sum below `amount`, the call
fails with `NotEnoughCoins`. -/
theorem claim_C8 (acc : Account) (target_address : List Nat) (amount fee : Rat) :
    (∀ tx pks, acc.create_unsigned_transaction target_address amount fee
        = some (Except.ok (tx, pks)) →
      ∃ selected, search_utxos_to_spend acc.utxo_set amount = Except.ok selected ∧
        tx.tx_outputs
          = [TxOutput.new (sum_of_outs selected - amount)
              (BitcoinAddress.to_pk_script acc.bitcoin_address) 0,
             TxOutput.new (amount - fee) (BitcoinAddress.to_pk_script target_address) 1] ∧
        tx.tx_inputs
          = selected.map (fun o => TxInput.new_unsigned o.tx_id (o.index % 4294967296) []) ∧
        (∀ i ∈ tx.tx_inputs, i.signature_script = []) ∧
        pks = selected.map TxOutput.pk_script) ∧
    ((∀ o ∈ UtxoSet.allOutputs acc.utxo_set, 0 ≤ o.value) →
     (∀ o ∈ UtxoSet.allOutputs acc.utxo_set, (pk_script_to_pk_hash o.pk_script).isSome = true) →
     sum_of_outs (UtxoSet.allOutputs acc.utxo_set) < amount →
     acc.create_unsigned_transaction target_address amount fee
       = some (Except.error (NodeError.NotEnoughCoins "Not enough coins to spend"))) := by
  constructor
  · intro tx pks hok
    unfold Account.create_unsigned_transaction at hok
    cases hbal : acc.balance_for_user with
    | none => rw [hbal] at hok; cases hok
    | some balance =>
      rw [hbal] at hok
      simp only [] at hok
      by_cases hblt : balance < amount
      · rw [if_pos hblt] at hok
        simp at hok
      · rw [if_neg hblt] at hok
        unfold Account.create_unsigned_inputs at hok
        cases hsearch : search_utxos_to_spend acc.utxo_set amount with
        | error e => rw [hsearch] at hok; simp at hok
        | ok selected =>
          rw [hsearch] at hok
          simp only [Option.some.injEq, Except.ok.injEq, Prod.mk.injEq] at hok
          obtain ⟨htx, hpks⟩ := hok
          subst htx
          subst hpks
          refine ⟨selected, rfl, rfl, rfl, ?_, rfl⟩
          intro i hi
          simp only [Transaction.new_unsigned, List.mem_map] at hi
          obtain ⟨o, _, ho⟩ := hi
          rw [← ho]
          rfl
  · intro hval hscript hsum
    obtain ⟨b, hb, hble⟩ := calculate_balance_le
      (BitcoinAddress.to_pk_hash acc.bitcoin_address) acc.utxo_set hval hscript
    unfold Account.create_unsigned_transaction
    unfold Account.balance_for_user
    rw [hb]
    simp only []
    rw [if_pos (lt_of_le_of_lt hble hsum)]

unseal Rat.add Rat.sub Rat.mul Rat.inv in
/-- C8, witness: a coin-less account cannot pay 1 coin
(`NotEnoughCoins`), and an account with one 1-coin UTXO paying half a coin
with a tenth of a coin of fee gets exactly the claimed transaction shape.
(The rational operations are unsealed so `decide` can evaluate them.) -/
theorem claim_C8_witness :
    (witAccount.create_unsigned_transaction [] 1 0
      = some (Except.error (NodeError.NotEnoughCoins "Not enough coins to spend"))) ∧
    (∃ selected, search_utxos_to_spend witAccount2.utxo_set (1/2) = Except.ok selected ∧
      witTx.tx_outputs
        = [TxOutput.new (sum_of_outs selected - 1/2)
            (BitcoinAddress.to_pk_script witAccount2.bitcoin_address) 0,
           TxOutput.new (1/2 - 1/10) (BitcoinAddress.to_pk_script witTarget) 1] ∧
      witTx.tx_inputs
        = selected.map (fun o => TxInput.new_unsigned o.tx_id (o.index % 4294967296) []) ∧
      (∀ i ∈ witTx.tx_inputs, i.signature_script = []) ∧
      [pk_hash_to_pk_script (List.replicate 20 7)] = selected.map TxOutput.pk_script) :=
  ⟨(claim_C8 witAccount [] 1 0).2 (by decide) (by decide) (by decide),
   (claim_C8 witAccount2 witTarget (1/2) (1/10)).1 witTx
     [pk_hash_to_pk_script (List.replicate 20 7)] (by decide)⟩

